import Mathlib

/-!
Verification of the two cellular-automata simulations of this repository:
the Nagel-Schreckenberg (NS) single-lane traffic model and Conway's Game
of Life.  Each definition below is a direct translation of the Python
source; randomness (`np.random.rand()`) is modelled by an explicit stream
`u : ℕ → ℚ` of uniform draws together with a counter that records how many
draws have been consumed, so that the sequential consumption of the global
random source is captured faithfully.
-/

/-- A traffic state: the list `pos` of vehicle positions, the list `vel`
of vehicle velocities (both in vehicle-index order, positions ascending),
and the number of random draws consumed so far. -/
abbrev NSState := List ℤ × List ℤ × ℕ

/-- One iteration `i` of the per-vehicle update loop of the NS model,
translated line by line from the source:
acceleration (`if vel[i] < vmax: vel[i] += 1`),
slowing down (`if i < N-1: if vel[i] >= pos[i+1]-pos[i]: vel[i] = pos[i+1]-pos[i]-1`,
else the periodic branch `if vel[i] >= (L-pos[i]-1)+pos[0]: vel[i] = (L-pos[i]-1)+pos[0]-1`),
random deceleration (`if vel[i] >= 1: if rand() < p: vel[i] -= 1`, which
consumes one draw from the stream),
motion (`pos[i] = pos[i] + vel[i]`), and the in-loop periodic boundary
condition on positions (`if pos[N-1] >= L: pop the last vehicle, subtract
L from its position and insert it at the front`). -/
def nsBody (L vmax : ℤ) (p : ℚ) (N : ℕ) (u : ℕ → ℚ) (st : NSState) (i : ℕ) : NSState :=
  let pos := st.1
  let vel := st.2.1
  let k := st.2.2
  let v0 := vel.getD i 0
  let v1 := if v0 < vmax then v0 + 1 else v0
  let v2 :=
    if i < N - 1 then
      if pos.getD (i + 1) 0 - pos.getD i 0 ≤ v1 then pos.getD (i + 1) 0 - pos.getD i 0 - 1 else v1
    else
      if (L - pos.getD i 0 - 1) + pos.getD 0 0 ≤ v1 then (L - pos.getD i 0 - 1) + pos.getD 0 0 - 1
      else v1
  let vk : ℤ × ℕ := if 1 ≤ v2 then (if u k < p then v2 - 1 else v2, k + 1) else (v2, k)
  let pos2 := pos.set i (pos.getD i 0 + vk.1)
  let vel2 := vel.set i vk.1
  if L ≤ pos2.getD (N - 1) 0 then
    ((pos2.getD (N - 1) 0 - L) :: pos2.take (N - 1),
     (vel2.getD (N - 1) 0) :: vel2.take (N - 1), vk.2)
  else (pos2, vel2, vk.2)

/-- One time tick of the NS model: the source's `for i in range(N)` loop
over the per-vehicle update. -/
def nsStep (L vmax : ℤ) (p : ℚ) (N : ℕ) (u : ℕ → ℚ) (st : NSState) : NSState :=
  (List.range N).foldl (nsBody L vmax p N u) st

/-- `T` time ticks of the NS model (the outer loop of the simulation proper). -/
def nsRun (L vmax : ℤ) (p : ℚ) (N : ℕ) (u : ℕ → ℚ) : ℕ → NSState → NSState
  | 0, st => st
  | T + 1, st => nsRun L vmax p N u T (nsStep L vmax p N u st)

/-- The source's position initialization from a list of gaps:
`pos[0] = gaps[0]`, and `pos[i] = pos[i-1] + gaps[i]` for `i = 1..N-1`. -/
def nsInitPos : List ℤ → List ℤ
  | [] => []
  | g :: gs => List.scanl (· + ·) g gs

/-- The value written to the traffic space-time array for a vehicle of
velocity `v`: `1` if `v == 0`, `2` if `v == 1`, and `3` otherwise. -/
def trafficCell (v : ℤ) : ℤ := if v = 0 then 1 else if v = 1 then 2 else 3

/-- A NumPy-style write `row[x] = v` into a row of width `L`: indices
`0 ≤ x < L` write directly, negative indices `-L ≤ x < 0` wrap to `x + L`,
and any other index raises `IndexError` (modelled as `none`). -/
def npSetRow (L : ℕ) (row : List ℤ) (x v : ℤ) : Option (List ℤ) :=
  if 0 ≤ x ∧ x < (L : ℤ) then some (row.set x.toNat v)
  else if -(L : ℤ) ≤ x ∧ x < 0 then some (row.set (x + L).toNat v)
  else none

/-- The source's per-tick drawing loop: starting from a zero row of width
`L`, write `trafficCell (vel[i])` at column `pos[i]` for `i = 0..N-1`. -/
def drawRow (L N : ℕ) (pos vel : List ℤ) : Option (List ℤ) :=
  (List.range N).foldl
    (fun row? i => row?.bind fun row => npSetRow L row (pos.getD i 0) (trafficCell (vel.getD i 0)))
    (some (List.replicate L 0))

/-- The Game-of-Life neighbour table built by the source for an `n × n`
board under the fixed boundary policy, as a function on cell coordinates.
For `n ≥ 2` the source's dictionary assignments have pairwise distinct
keys covering every cell, so the final dictionary contents coincide with
this case analysis: the four corners get the 3 in-range neighbours, the
four (non-corner) edges get 5, and interior cells get all 8. -/
def nbrs (n : ℕ) (c : ℕ × ℕ) : List (ℕ × ℕ) :=
  let i := c.1
  let j := c.2
  if i = 0 ∧ j = 0 then [(0, 1), (1, 1), (1, 0)]
  else if i = 0 ∧ j = n - 1 then [(1, n - 1), (1, n - 2), (0, n - 2)]
  else if i = n - 1 ∧ j = n - 1 then [(n - 1, n - 2), (n - 2, n - 2), (n - 2, n - 1)]
  else if i = n - 1 ∧ j = 0 then [(n - 2, 0), (n - 2, 1), (n - 1, 1)]
  else if i = 0 then [(0, j + 1), (1, j + 1), (1, j), (1, j - 1), (0, j - 1)]
  else if j = n - 1 then
    [(i + 1, n - 1), (i + 1, n - 2), (i, n - 2), (i - 1, n - 2), (i - 1, n - 1)]
  else if i = n - 1 then
    [(n - 1, j - 1), (n - 2, j - 1), (n - 2, j), (n - 2, j + 1), (n - 1, j + 1)]
  else if j = 0 then [(i - 1, 0), (i - 1, 1), (i, 1), (i + 1, 1), (i + 1, 0)]
  else
    [(i, j + 1), (i + 1, j + 1), (i + 1, j), (i + 1, j - 1), (i, j - 1), (i - 1, j - 1),
     (i - 1, j), (i - 1, j + 1)]

/-- One step of the Game of Life, translated from the source: the new
board is computed cell by cell from the old board (`newboard` is a fresh
zero array, all reads go to `board`), with
`numnbr = sum of board[k,l] over (k,l) in nbrs[(i,j)]` and the update
`if board[i,j] == 1: newboard[i,j] = 0 if numnbr < 2 or numnbr > 3 else 1`
`else: newboard[i,j] = 1 if numnbr == 3 else 0`. -/
def lifeStep (n : ℕ) (board : ℕ × ℕ → ℤ) : ℕ × ℕ → ℤ := fun c =>
  let numnbr := ((nbrs n c).map board).sum
  if board c = 1 then (if numnbr < 2 ∨ 3 < numnbr then 0 else 1)
  else (if numnbr = 3 then 1 else 0)

/-- `T` steps of the Game of Life (the source's `for t in range(T)` loop,
which rebuilds `newboard` from `board` each turn and then replaces
`board` wholesale). -/
def lifeRun (n : ℕ) : ℕ → (ℕ × ℕ → ℤ) → (ℕ × ℕ → ℤ)
  | 0, b => b
  | T + 1, b => lifeRun n T (lifeStep n b)

/-- The gap quantity used by the specification's slowing-down sub-rule:
the distance to the next vehicle ahead for `i < N-1`, and
`(L - position - 1) + position_of_agent_0` for the wrap agent. -/
def nsGap (L : ℤ) (N : ℕ) (pos : List ℤ) (i : ℕ) : ℤ :=
  if i < N - 1 then pos.getD (i + 1) 0 - pos.getD i 0
  else (L - pos.getD i 0 - 1) + pos.getD 0 0

/-- Sub-rule 1 of the specification (acceleration): add 1 when below `vmax`. -/
def nsAccel (vmax v : ℤ) : ℤ := if v < vmax then v + 1 else v

/-- Sub-rule 2 of the specification (slowing down): clamp the velocity to
`gap - 1` when it is at least the gap. -/
def nsSlow (g v : ℤ) : ℤ := if g ≤ v then g - 1 else v

/-- Sub-rule 3 of the specification (random deceleration): when the velocity
is at least 1, consume one uniform draw and decrement the velocity when the
draw is below `p`.  Returns the new velocity and the new draw counter. -/
def nsDecel (p : ℚ) (u : ℕ → ℚ) (k : ℕ) (v : ℤ) : ℤ × ℕ :=
  if 1 ≤ v then (if u k < p then v - 1 else v, k + 1) else (v, k)

/-- The specification's four sub-rules applied to vehicle `i`: acceleration,
slowing down against `nsGap`, random deceleration, and motion
(`position := position + velocity`, with no reduction mod `L` here). -/
def nsFourRules (L vmax : ℤ) (p : ℚ) (N : ℕ) (u : ℕ → ℚ) (st : NSState) (i : ℕ) : NSState :=
  let vk := nsDecel p u st.2.2 (nsSlow (nsGap L N st.1 i) (nsAccel vmax (st.2.1.getD i 0)))
  (st.1.set i (st.1.getD i 0 + vk.1), st.2.1.set i vk.1, vk.2)

/-- The specification's sub-rule 5 (wrap normalization): when the last
vehicle's position is at least `L`, subtract `L` from it and move the vehicle
to the front of the ordered sequence. -/
def nsWrapNorm (L : ℤ) (N : ℕ) (st : NSState) : NSState :=
  if L ≤ st.1.getD (N - 1) 0 then
    ((st.1.getD (N - 1) 0 - L) :: st.1.take (N - 1),
     (st.2.1.getD (N - 1) 0) :: st.2.1.take (N - 1), st.2.2)
  else st

/-- Following the words of claim C3: the per-vehicle update in which the wrap
agent's slowing-down gap is computed from the pre-step position of agent 0
(the snapshot `pos0pre` taken at the start of the tick) instead of the live
value of `pos[0]`.  All other sub-rules are unchanged. -/
def nsBodyPre (L vmax : ℤ) (p : ℚ) (N : ℕ) (u : ℕ → ℚ) (pos0pre : ℤ) (st : NSState)
    (i : ℕ) : NSState :=
  let pos := st.1
  let vel := st.2.1
  let k := st.2.2
  let v0 := vel.getD i 0
  let v1 := if v0 < vmax then v0 + 1 else v0
  let v2 :=
    if i < N - 1 then
      if pos.getD (i + 1) 0 - pos.getD i 0 ≤ v1 then pos.getD (i + 1) 0 - pos.getD i 0 - 1 else v1
    else
      if (L - pos.getD i 0 - 1) + pos0pre ≤ v1 then (L - pos.getD i 0 - 1) + pos0pre - 1
      else v1
  let vk : ℤ × ℕ := if 1 ≤ v2 then (if u k < p then v2 - 1 else v2, k + 1) else (v2, k)
  let pos2 := pos.set i (pos.getD i 0 + vk.1)
  let vel2 := vel.set i vk.1
  if L ≤ pos2.getD (N - 1) 0 then
    ((pos2.getD (N - 1) 0 - L) :: pos2.take (N - 1),
     (vel2.getD (N - 1) 0) :: vel2.take (N - 1), vk.2)
  else (pos2, vel2, vk.2)

/-- Following the words of claim C3: one tick in which the wrap agent's gap
uses the pre-step position of agent 0. -/
def nsStepPre (L vmax : ℤ) (p : ℚ) (N : ℕ) (u : ℕ → ℚ) (st : NSState) : NSState :=
  (List.range N).foldl (nsBodyPre L vmax p N u (st.1.getD 0 0)) st

/-- The number of alive neighbours of a cell, read off a neighbour list. -/
def countAliveNbrs (board : ℕ × ℕ → ℤ) (l : List (ℕ × ℕ)) : ℕ :=
  l.countP (fun d => board d == 1)

/-- The Game-of-Life survival/birth rule as the specification words it:
an alive cell stays alive exactly when it has 2 or 3 alive neighbours, a
dead cell becomes alive exactly when it has exactly 3 alive neighbours. -/
def lifeRuleSpec (alive : Bool) (cnt : ℕ) : Bool :=
  if alive then decide (2 ≤ cnt) && decide (cnt ≤ 3) else decide (cnt = 3)

/-- Well-formedness of a traffic state as the specification's data model
states it: `N` vehicles with positions strictly increasing within
`[0, L-1]` (hence pairwise distinct, ascending with the wrap between the
last and the first vehicle) and velocities within `[0, vmax]`; at least
one vehicle and, since `agent_count < track_length`, a track of length at
least 2. -/
def SpecWF (L vmax : ℤ) (N : ℕ) (pos vel : List ℤ) : Prop :=
  pos.length = N ∧ vel.length = N ∧ 1 ≤ N ∧ 2 ≤ L ∧
  (∀ i < N - 1, pos.getD i 0 < pos.getD (i + 1) 0) ∧
  0 ≤ pos.getD 0 0 ∧ pos.getD (N - 1) 0 ≤ L - 1 ∧
  (∀ i < N, 0 ≤ vel.getD i 0 ∧ vel.getD i 0 ≤ vmax)

/-- The inductive invariant the code's step actually maintains: spec
well-formedness strengthened by the clause that when the first vehicle sits
in cell 0, the last vehicle is at most in cell `L - 2`.  Every state produced
by the gap-based initialization satisfies the clause vacuously, because its
first position equals the first gap, which is at least 1. -/
def ReachWF (L vmax : ℤ) (N : ℕ) (pos vel : List ℤ) : Prop :=
  SpecWF L vmax N pos vel ∧ (pos.getD 0 0 = 0 → pos.getD (N - 1) 0 ≤ L - 2)

instance (L vmax : ℤ) (N : ℕ) (pos vel : List ℤ) : Decidable (SpecWF L vmax N pos vel) := by
  unfold SpecWF
  infer_instance

instance (L vmax : ℤ) (N : ℕ) (pos vel : List ℤ) : Decidable (ReachWF L vmax N pos vel) := by
  unfold ReachWF
  infer_instance

lemma getD_set_self (l : List ℤ) (i : ℕ) (x d : ℤ) (h : i < l.length) :
    (l.set i x).getD i d = x := by
  simp [List.getD, List.getElem?_set_eq_of_lt, h]

lemma getD_set_other (l : List ℤ) (i j : ℕ) (x d : ℤ) (h : i ≠ j) :
    (l.set i x).getD j d = l.getD j d := by
  simp [List.getD, List.getElem?_set_ne, h]

lemma getD_take_lt (l : List ℤ) (m j : ℕ) (d : ℤ) (h : j < m) :
    (l.take m).getD j d = l.getD j d := by
  simp [List.getD, List.getElem?_take, h]

lemma foldl_ext_body {σ ι : Type} (f g : σ → ι → σ) (hfg : ∀ s i, f s i = g s i) :
    ∀ (l : List ι) (st : σ), l.foldl f st = l.foldl g st := by
  intro l
  induction l with
  | nil => intro st; rfl
  | cons a l ih => intro st; simp only [List.foldl_cons, hfg, ih]

lemma foldl_inv {σ ι : Type} (f : σ → ι → σ) (P : σ → Prop) :
    ∀ (l : List ι) (st : σ), P st → (∀ s i, i ∈ l → P s → P (f s i)) → P (l.foldl f st) := by
  intro l
  induction l with
  | nil => intro st h _; exact h
  | cons a l ih =>
    intro st h hstep
    exact ih _ (hstep st a (List.mem_cons_self a l) h)
      (fun s i hi hs => hstep s i (List.mem_cons_of_mem a hi) hs)

lemma nsBody_decomp (L vmax : ℤ) (p : ℚ) (N : ℕ) (u : ℕ → ℚ) (st : NSState) (i : ℕ) :
    nsBody L vmax p N u st i = nsWrapNorm L N (nsFourRules L vmax p N u st i) := by
  unfold nsBody nsFourRules nsWrapNorm nsGap nsAccel nsSlow nsDecel
  by_cases h : i < N - 1 <;> simp [h]

/-- C10: the gap-based traffic initialization admits an outcome (all 25 gaps
equal to floor(100/25) = 4, each inside the legal range [1, 100/25]) whose
last vehicle position is 100 = L, outside the valid cell range [0, L-1]; the
snapshot write for that state indexes column L of a width-L row, an
out-of-range NumPy access (modelled as the drawing loop returning none). -/
theorem nsInit_overflow_C10 :
    (∀ g ∈ List.replicate 25 (4 : ℤ), 1 ≤ g ∧ g ≤ 100 / 25) ∧
    (nsInitPos (List.replicate 25 (4 : ℤ))).getD 24 0 = 100 ∧
    ¬ (nsInitPos (List.replicate 25 (4 : ℤ))).getD 24 0 ≤ 100 - 1 ∧
    drawRow 100 25 (nsInitPos (List.replicate 25 (4 : ℤ))) (List.replicate 25 0) = none := by
  decide

/-- C6: each tick is a deterministic function of the current state and the
injected random stream; two runs of any length with identical streams (the
draws produced by an identically seeded generator) and identical parameters
produce identical position and velocity sequences. -/
theorem nsRun_deterministic_C6 (L vmax : ℤ) (p : ℚ) (N : ℕ) (u₁ u₂ : ℕ → ℚ)
    (st : NSState) (h : ∀ n, u₁ n = u₂ n) :
    ∀ T, nsRun L vmax p N u₁ T st = nsRun L vmax p N u₂ T st := by
  have hu : u₁ = u₂ := funext h
  intro T
  rw [hu]

theorem nsRun_deterministic_C6_witness :
    nsRun 10 2 (1/2) 2 (fun _ => 1/3) 3 ([0, 5], [0, 0], 0) =
      nsRun 10 2 (1/2) 2 (fun _ => 1/3) 3 ([0, 5], [0, 0], 0) :=
  nsRun_deterministic_C6 10 2 (1/2) 2 (fun _ => 1/3) (fun _ => 1/3)
    ([0, 5], [0, 0], 0) (fun _ => rfl) 3

lemma nsBody_zero_p (L vmax : ℤ) (N : ℕ) (u₁ u₂ : ℕ → ℚ) (h₁ : ∀ n, 0 ≤ u₁ n)
    (h₂ : ∀ n, 0 ≤ u₂ n) (st : NSState) (i : ℕ) :
    nsBody L vmax 0 N u₁ st i = nsBody L vmax 0 N u₂ st i := by
  have e₁ : ¬ (u₁ st.2.2 < 0) := not_lt.mpr (h₁ st.2.2)
  have e₂ : ¬ (u₂ st.2.2 < 0) := not_lt.mpr (h₂ st.2.2)
  unfold nsBody
  simp only [e₁, e₂, if_false]

lemma nsStep_zero_p (L vmax : ℤ) (N : ℕ) (u₁ u₂ : ℕ → ℚ) (h₁ : ∀ n, 0 ≤ u₁ n)
    (h₂ : ∀ n, 0 ≤ u₂ n) (st : NSState) :
    nsStep L vmax 0 N u₁ st = nsStep L vmax 0 N u₂ st :=
  foldl_ext_body _ _ (fun s i => nsBody_zero_p L vmax N u₁ u₂ h₁ h₂ s i) _ st

/-- C8: with slowdown probability p = 0 the simulation output does not depend
on the random stream at all (any two nonnegative draw streams give identical
runs), and in the concrete case L=10, N=2, vmax=2, p=0, positions [0,5] and
velocities [0,0], one tick yields velocities [1,1] and positions [1,6] (the
gap of 5 triggers no collision clamp). -/
theorem nsZeroProb_deterministic_C8 :
    (∀ (L vmax : ℤ) (N : ℕ) (u₁ u₂ : ℕ → ℚ) (T : ℕ) (st : NSState),
        (∀ n, 0 ≤ u₁ n) → (∀ n, 0 ≤ u₂ n) →
        nsRun L vmax 0 N u₁ T st = nsRun L vmax 0 N u₂ T st) ∧
    (∀ (u : ℕ → ℚ) (k : ℕ), (∀ n, 0 ≤ u n) →
        (nsStep 10 2 0 2 u ([0, 5], [0, 0], k)).1 = [1, 6] ∧
        (nsStep 10 2 0 2 u ([0, 5], [0, 0], k)).2.1 = [1, 1]) := by
  constructor
  · intro L vmax N u₁ u₂ T
    induction T with
    | zero => intro st _ _; rfl
    | succ T ih =>
      intro st h₁ h₂
      show nsRun L vmax 0 N u₁ T (nsStep L vmax 0 N u₁ st) =
        nsRun L vmax 0 N u₂ T (nsStep L vmax 0 N u₂ st)
      rw [nsStep_zero_p L vmax N u₁ u₂ h₁ h₂ st]
      exact ih _ h₁ h₂
  · intro u k h
    have h0 : ¬ (u k < 0) := not_lt.mpr (h k)
    have h1 : ¬ (u (k + 1) < 0) := not_lt.mpr (h (k + 1))
    have hr : List.range 2 = [0, 1] := by decide
    constructor <;> simp [nsStep, hr, nsBody, h0, h1]

theorem nsZeroProb_deterministic_C8_witness :
    (nsStep 10 2 0 2 (fun _ => 1/2) ([0, 5], [0, 0], 0)).1 = [1, 6] ∧
    (nsStep 10 2 0 2 (fun _ => 1/2) ([0, 5], [0, 0], 0)).2.1 = [1, 1] :=
  nsZeroProb_deterministic_C8.2 (fun _ => 1/2) 0 (fun _ => by norm_num)

lemma sum_map_board (board : ℕ × ℕ → ℤ) (h : ∀ c, board c = 0 ∨ board c = 1)
    (l : List (ℕ × ℕ)) : (l.map board).sum = (countAliveNbrs board l : ℤ) := by
  induction l with
  | nil => simp [countAliveNbrs]
  | cons a l ih =>
    rcases h a with ha | ha <;>
      simp [countAliveNbrs, List.countP_cons, ha, ih] at * <;> omega

/-- C2: the Life step is a pure function of the current grid: on any 0/1
grid, every cell's next value is determined by the spec rule applied to the
cell's own value and its alive-neighbour count read from the neighbour
table (alive survives exactly with 2 or 3 alive neighbours, dead is born
exactly with 3), and the next value of a cell depends only on the current
values of that cell and its table neighbours (no updated value is ever
observed within the same step). -/
theorem lifeStep_spec_C2 (n : ℕ) (board : ℕ × ℕ → ℤ)
    (h01 : ∀ c, board c = 0 ∨ board c = 1) (c : ℕ × ℕ) :
    lifeStep n board c =
      (if lifeRuleSpec (board c == 1) (countAliveNbrs board (nbrs n c)) then 1 else 0) ∧
    (∀ board' : ℕ × ℕ → ℤ, board' c = board c →
      (∀ d ∈ nbrs n c, board' d = board d) → lifeStep n board' c = lifeStep n board c) := by
  constructor
  · unfold lifeStep lifeRuleSpec
    rw [sum_map_board board h01]
    rcases h01 c with hc | hc <;> simp only [hc]
    · norm_num
      by_cases h3 : (countAliveNbrs board (nbrs n c)) = 3 <;> simp [h3]
      omega
    · norm_num
      by_cases hlo : 2 ≤ countAliveNbrs board (nbrs n c) <;>
        by_cases hhi : countAliveNbrs board (nbrs n c) ≤ 3 <;>
        simp [hlo, hhi]
  · intro board' hc hnb
    unfold lifeStep
    rw [hc, List.map_congr_left hnb]

theorem lifeStep_spec_C2_witness :
    lifeStep 4 (fun _ => 0) (1, 1) =
      (if lifeRuleSpec ((fun (_ : ℕ × ℕ) => (0 : ℤ)) (1, 1) == 1)
          (countAliveNbrs (fun _ => 0) (nbrs 4 (1, 1))) then 1 else 0) :=
  (lifeStep_spec_C2 4 (fun _ => 0) (fun _ => Or.inl rfl) (1, 1)).1

/-- C5: under the fixed boundary policy, every cell of the n x n grid has a
neighbour-table entry of one of the three arities, and the arity is exactly
3 for the four corner cells, exactly 5 for non-corner edge cells, and
exactly 8 for interior cells. -/
theorem nbrs_counts_C5 (n : ℕ) (hn : 2 ≤ n) (i j : ℕ) (hi : i < n) (hj : j < n) :
    ((i = 0 ∨ i = n - 1) ∧ (j = 0 ∨ j = n - 1) → (nbrs n (i, j)).length = 3) ∧
    ((i = 0 ∨ i = n - 1 ∨ j = 0 ∨ j = n - 1) →
      ¬ ((i = 0 ∨ i = n - 1) ∧ (j = 0 ∨ j = n - 1)) → (nbrs n (i, j)).length = 5) ∧
    (¬ (i = 0 ∨ i = n - 1 ∨ j = 0 ∨ j = n - 1) → (nbrs n (i, j)).length = 8) ∧
    ((nbrs n (i, j)).length = 3 ∨ (nbrs n (i, j)).length = 5 ∨ (nbrs n (i, j)).length = 8) := by
  simp only [nbrs]
  split_ifs with h1 h2 h3 h4 h5 h6 h7 h8 <;>
    simp only [List.length_cons, List.length_nil] <;>
    refine ⟨?_, ?_, ?_, ?_⟩ <;> simp_all

theorem nbrs_counts_C5_witness :
    2 ≤ 4 ∧ (nbrs 4 (0, 0)).length = 3 :=
  ⟨by norm_num,
    (nbrs_counts_C5 4 (by norm_num) 0 0 (by norm_num) (by norm_num)).1
      ⟨Or.inl rfl, Or.inl rfl⟩⟩

lemma trafficCell_bounds (v : ℤ) : 0 ≤ trafficCell v ∧ trafficCell v ≤ 3 := by
  unfold trafficCell
  split_ifs <;> norm_num

lemma trafficCell_eq_succ (v : ℤ) (h0 : 0 ≤ v) (h2 : v ≤ 2) : trafficCell v = v + 1 := by
  unfold trafficCell
  have hv : v = 0 ∨ v = 1 ∨ v = 2 := by omega
  rcases hv with rfl | rfl | rfl <;> norm_num

lemma getD_replicate_zero (L c : ℕ) : (List.replicate L (0 : ℤ)).getD c 0 = 0 := by
  simp only [List.getD, List.get?_eq_getElem?, List.getElem?_replicate]
  split <;> rfl

lemma toNat_ne_of_ne (a b : ℤ) (ha : 0 ≤ a) (hb : 0 ≤ b) (h : a ≠ b) :
    a.toNat ≠ b.toNat := by
  omega

lemma drawRow_spec_aux (L N : ℕ) (pos vel : List ℤ)
    (hrange : ∀ i < N, 0 ≤ pos.getD i 0 ∧ pos.getD i 0 < (L : ℤ))
    (hdist : ∀ i < N, ∀ j < N, i ≠ j → pos.getD i 0 ≠ pos.getD j 0) :
    ∀ m, m ≤ N → ∃ row : List ℤ,
      (List.range m).foldl
          (fun row? i => row?.bind fun row =>
            npSetRow L row (pos.getD i 0) (trafficCell (vel.getD i 0)))
          (some (List.replicate L 0)) = some row ∧
      row.length = L ∧
      (∀ i < m, row.getD (pos.getD i 0).toNat 0 = trafficCell (vel.getD i 0)) ∧
      (∀ c : ℕ, (∀ i < m, (pos.getD i 0).toNat ≠ c) → row.getD c 0 = 0) ∧
      (∀ c : ℕ, 0 ≤ row.getD c 0 ∧ row.getD c 0 ≤ 3) := by
  intro m
  induction m with
  | zero =>
    intro _
    refine ⟨List.replicate L 0, rfl, by simp, by omega, ?_, ?_⟩
    · intro c _
      exact getD_replicate_zero L c
    · intro c
      rw [getD_replicate_zero L c]
      norm_num
  | succ m ih =>
    intro hm
    obtain ⟨row, hfold, hlen, hocc, hzero, hbnd⟩ := ih (by omega)
    have hm' : m < N := by omega
    have hr := hrange m hm'
    have hx : (pos.getD m 0).toNat < L := by omega
    refine ⟨row.set (pos.getD m 0).toNat (trafficCell (vel.getD m 0)), ?_, ?_, ?_, ?_, ?_⟩
    · rw [List.range_succ, List.foldl_append, hfold]
      show npSetRow L row (pos.getD m 0) (trafficCell (vel.getD m 0)) = _
      unfold npSetRow
      rw [if_pos ⟨hr.1, hr.2⟩]
    · simp [hlen]
    · intro i hi
      rcases Nat.lt_or_ge i m with him | him
      · rw [getD_set_other _ _ _ _ _
          (toNat_ne_of_ne _ _ hr.1 (hrange i (by omega)).1
            (hdist m hm' i (by omega) (by omega)))]
        exact hocc i him
      · have : i = m := by omega
        subst this
        exact getD_set_self row _ _ _ (hlen ▸ hx)
    · intro c hc
      have hne : (pos.getD m 0).toNat ≠ c := hc m (by omega)
      rw [getD_set_other _ _ _ _ _ hne]
      exact hzero c (fun i hi => hc i (by omega))
    · intro c
      rcases eq_or_ne (pos.getD m 0).toNat c with rfl | hne
      · rw [getD_set_self row _ _ _ (hlen ▸ hx)]
        exact trafficCell_bounds _
      · rw [getD_set_other _ _ _ _ _ hne]
        exact hbnd c

/-- C9: on a well-formed snapshot input (positions within the track and
pairwise distinct, velocities within [0, vmax] with the source's vmax = 2),
the drawing loop succeeds and produces a row of width L in which the cell of
every vehicle holds velocity + 1 (so a stopped vehicle is encoded as 1),
every empty cell holds 0, and every value lies in {0, 1, ..., vmax + 1}. -/
theorem drawRow_encoding_C9 (L N : ℕ) (pos vel : List ℤ)
    (hrange : ∀ i < N, 0 ≤ pos.getD i 0 ∧ pos.getD i 0 < (L : ℤ))
    (hdist : ∀ i < N, ∀ j < N, i ≠ j → pos.getD i 0 ≠ pos.getD j 0)
    (hvel : ∀ i < N, 0 ≤ vel.getD i 0 ∧ vel.getD i 0 ≤ 2) :
    ∃ row : List ℤ, drawRow L N pos vel = some row ∧ row.length = L ∧
      (∀ i < N, row.getD (pos.getD i 0).toNat 0 = vel.getD i 0 + 1) ∧
      (∀ c : ℕ, (∀ i < N, (pos.getD i 0).toNat ≠ c) → row.getD c 0 = 0) ∧
      (∀ c : ℕ, 0 ≤ row.getD c 0 ∧ row.getD c 0 ≤ 2 + 1) := by
  obtain ⟨row, h1, h2, h3, h4, h5⟩ := drawRow_spec_aux L N pos vel hrange hdist N le_rfl
  exact ⟨row, h1, h2,
    fun i hi => by rw [h3 i hi, trafficCell_eq_succ _ (hvel i hi).1 (hvel i hi).2],
    h4, h5⟩

theorem drawRow_encoding_C9_witness :
    ∃ row : List ℤ, drawRow 5 2 [1, 3] [0, 2] = some row ∧ row.length = 5 ∧
      (∀ i < 2, row.getD (([1, 3] : List ℤ).getD i 0).toNat 0 =
        ([0, 2] : List ℤ).getD i 0 + 1) ∧
      (∀ c : ℕ, (∀ i < 2, (([1, 3] : List ℤ).getD i 0).toNat ≠ c) → row.getD c 0 = 0) ∧
      (∀ c : ℕ, 0 ≤ row.getD c 0 ∧ row.getD c 0 ≤ 2 + 1) :=
  drawRow_encoding_C9 5 2 [1, 3] [0, 2] (by decide) (by decide) (by decide)

/-- C1: one tick of the step operation applies to each vehicle i, in index
order i = 0..N-1, the four sub-rules of the specification -- acceleration,
slowing down against the gap (with the wrap agent's gap
(L - position - 1) + position_of_agent_0), random deceleration consuming one
uniform draw, and motion position := position + velocity with no reduction
mod L -- each application being followed by the source's in-loop wrap
normalization check (sub-rule 5). -/
theorem nsStep_fourRules_C1 (L vmax : ℤ) (p : ℚ) (N : ℕ) (u : ℕ → ℚ) (st : NSState) :
    nsStep L vmax p N u st =
      (List.range N).foldl
        (fun s i => nsWrapNorm L N (nsFourRules L vmax p N u s i)) st :=
  foldl_ext_body _ _ (fun s i => nsBody_decomp L vmax p N u s i) _ st

/-- C3 as stated is false on the code: at L=10, N=2, vmax=2, p=0 with
positions [0, 8] and velocities [2, 2], the code's tick (which reads pos[0]
when agent N-1 is processed, after agent 0 has already moved) differs from
the tick that computes the wrap agent's gap from the pre-step position of
agent 0. -/
theorem nsStep_pre_counterexample_C3 :
    nsStep 10 2 0 2 (fun _ => 1) ([0, 8], [2, 2], 0) ≠
      nsStepPre 10 2 0 2 (fun _ => 1) ([0, 8], [2, 2], 0) := by
  decide

lemma nsBody_zero_char (L vmax : ℤ) (p : ℚ) (N : ℕ) (u : ℕ → ℚ) (pos vel : List ℤ)
    (k : ℕ) (hN : 2 ≤ N) (hp : pos.length = N) (hv : vel.length = N)
    (hlast : pos.getD (N - 1) 0 < L) :
    (nsBody L vmax p N u (pos, vel, k) 0).1.getD 0 0 =
      pos.getD 0 0 + (nsBody L vmax p N u (pos, vel, k) 0).2.1.getD 0 0 ∧
    (nsBody L vmax p N u (pos, vel, k) 0).1.length = N ∧
    (nsBody L vmax p N u (pos, vel, k) 0).2.1.length = N ∧
    (nsBody L vmax p N u (pos, vel, k) 0).1.getD (N - 1) 0 = pos.getD (N - 1) 0 := by
  have h0N : (0 : ℕ) ≠ N - 1 := by omega
  rw [nsBody_decomp]
  unfold nsFourRules nsWrapNorm
  simp only [getD_set_other _ _ _ _ _ h0N]
  rw [if_neg (not_le.mpr hlast)]
  simp only [List.length_set]
  refine ⟨?_, hp, hv, getD_set_other _ _ _ _ _ h0N⟩
  rw [getD_set_self _ _ _ _ (by omega), getD_set_self _ _ _ _ (by omega)]

lemma nsBody_mid_preserves (L vmax : ℤ) (p : ℚ) (N : ℕ) (u : ℕ → ℚ) (s : NSState)
    (i : ℕ) (h1 : 1 ≤ i) (h2 : i < N - 1) (hl1 : s.1.length = N) (hl2 : s.2.1.length = N)
    (hlast : s.1.getD (N - 1) 0 < L) :
    (nsBody L vmax p N u s i).1.getD 0 0 = s.1.getD 0 0 ∧
    (nsBody L vmax p N u s i).2.1.getD 0 0 = s.2.1.getD 0 0 ∧
    (nsBody L vmax p N u s i).1.length = N ∧
    (nsBody L vmax p N u s i).2.1.length = N ∧
    (nsBody L vmax p N u s i).1.getD (N - 1) 0 = s.1.getD (N - 1) 0 := by
  have hiN : i ≠ N - 1 := by omega
  have hi0 : i ≠ 0 := by omega
  rw [nsBody_decomp]
  unfold nsFourRules nsWrapNorm
  simp only [getD_set_other _ _ _ _ _ hiN]
  rw [if_neg (not_le.mpr hlast)]
  simp only [List.length_set]
  exact ⟨getD_set_other _ _ _ _ _ hi0, getD_set_other _ _ _ _ _ hi0, hl1, hl2,
    getD_set_other _ _ _ _ _ hiN⟩

/-- C3 amended: the slowing-down gap computation for the wrap agent uses the
value of pos[0] at the moment agent N-1 is processed, which is agent 0's
already-updated position (its pre-step position plus its updated velocity),
not agent 0's pre-step position: on a state whose last position is within the
track, the tick equals the first N-1 loop iterations followed by the
per-vehicle body at N-1, and the intermediate state's pos[0] equals the
pre-step pos[0] plus the intermediate state's vel[0]. -/
theorem nsStep_updated_pos0_C3 (L vmax : ℤ) (p : ℚ) (N : ℕ) (u : ℕ → ℚ)
    (pos vel : List ℤ) (k : ℕ) (hN : 2 ≤ N) (hp : pos.length = N)
    (hv : vel.length = N) (hlast : pos.getD (N - 1) 0 < L) :
    nsStep L vmax p N u (pos, vel, k) =
      nsBody L vmax p N u
        ((List.range (N - 1)).foldl (nsBody L vmax p N u) (pos, vel, k)) (N - 1) ∧
    ((List.range (N - 1)).foldl (nsBody L vmax p N u) (pos, vel, k)).1.getD 0 0 =
      pos.getD 0 0 +
        ((List.range (N - 1)).foldl (nsBody L vmax p N u) (pos, vel, k)).2.1.getD 0 0 := by
  obtain ⟨M, rfl⟩ : ∃ M, N = M + 2 := ⟨N - 2, by omega⟩
  constructor
  · show (List.range (M + 2)).foldl (nsBody L vmax p (M + 2) u) (pos, vel, k) = _
    rw [List.range_succ, List.foldl_append]
    rfl
  · have hchar := nsBody_zero_char L vmax p (M + 2) u pos vel k hN hp hv hlast
    rw [show M + 2 - 1 = M + 1 from rfl, List.range_succ_eq_map, List.foldl_cons]
    have key := foldl_inv (nsBody L vmax p (M + 2) u)
      (fun s : NSState =>
        s.1.getD 0 0 = (nsBody L vmax p (M + 2) u (pos, vel, k) 0).1.getD 0 0 ∧
        s.2.1.getD 0 0 = (nsBody L vmax p (M + 2) u (pos, vel, k) 0).2.1.getD 0 0 ∧
        s.1.length = M + 2 ∧ s.2.1.length = M + 2 ∧
        s.1.getD (M + 2 - 1) 0 = pos.getD (M + 2 - 1) 0)
      (List.map Nat.succ (List.range M))
      (nsBody L vmax p (M + 2) u (pos, vel, k) 0)
      ⟨rfl, rfl, hchar.2.1, hchar.2.2.1, hchar.2.2.2⟩
      ?_
    · obtain ⟨e0, e0v, _, _, _⟩ := key
      rw [e0, e0v, hchar.1]
    · intro s i hi hs
      obtain ⟨j, hj, rfl⟩ := List.mem_map.mp hi
      have hjM := List.mem_range.mp hj
      obtain ⟨f1, f2, f3, f4, f5⟩ :=
        nsBody_mid_preserves L vmax p (M + 2) u s (Nat.succ j) (by omega) (by omega)
          hs.2.2.1 hs.2.2.2.1 (by rw [hs.2.2.2.2]; exact hlast)
      exact ⟨by rw [f1, hs.1], by rw [f2, hs.2.1], f3, f4, by rw [f5, hs.2.2.2.2]⟩

theorem nsStep_updated_pos0_C3_witness :
    nsStep 10 2 0 2 (fun _ => 1) ([0, 8], [2, 2], 0) =
      nsBody 10 2 0 2 (fun _ => 1)
        ((List.range (2 - 1)).foldl (nsBody 10 2 0 2 (fun _ => 1)) ([0, 8], [2, 2], 0))
        (2 - 1) ∧
    ((List.range (2 - 1)).foldl (nsBody 10 2 0 2 (fun _ => 1))
        ([0, 8], [2, 2], 0)).1.getD 0 0 =
      ([0, 8] : List ℤ).getD 0 0 +
        ((List.range (2 - 1)).foldl (nsBody 10 2 0 2 (fun _ => 1))
            ([0, 8], [2, 2], 0)).2.1.getD 0 0 :=
  nsStep_updated_pos0_C3 10 2 0 2 (fun _ => 1) [0, 8] [2, 2] 0 (by norm_num)
    (by decide) (by decide) (by decide)

lemma nsAccel_bounds (vmax v : ℤ) (h0 : 0 ≤ v) (h1 : v ≤ vmax) :
    0 ≤ nsAccel vmax v ∧ nsAccel vmax v ≤ vmax := by
  unfold nsAccel
  split_ifs <;> omega

lemma nsSlow_le_pred (g v : ℤ) : nsSlow g v ≤ g - 1 := by
  unfold nsSlow
  split_ifs <;> omega

lemma nsSlow_nonneg (g v : ℤ) (h0 : 0 ≤ v) (hg : 1 ≤ g) : 0 ≤ nsSlow g v := by
  unfold nsSlow
  split_ifs <;> omega

lemma nsSlow_le_self (g v : ℤ) : nsSlow g v ≤ v := by
  unfold nsSlow
  split_ifs <;> omega

lemma nsDecel_bounds (p : ℚ) (u : ℕ → ℚ) (k : ℕ) (v : ℤ) (h0 : 0 ≤ v) :
    0 ≤ (nsDecel p u k v).1 ∧ (nsDecel p u k v).1 ≤ v := by
  unfold nsDecel
  split_ifs <;> simp <;> omega

lemma chain_strict_mono (pos : List ℤ) (N : ℕ)
    (hc : ∀ t < N - 1, pos.getD t 0 < pos.getD (t + 1) 0) :
    ∀ i j, i < j → j < N → pos.getD i 0 < pos.getD j 0 := by
  intro i j
  induction j with
  | zero => omega
  | succ j ih =>
    intro hij hj
    rcases Nat.lt_succ_iff_lt_or_eq.mp hij with h | h
    · exact (ih h (by omega)).trans (hc j (by omega))
    · subst h
      exact hc i (by omega)

lemma nsBody_interior_char (L vmax : ℤ) (p : ℚ) (N : ℕ) (u : ℕ → ℚ) (s : NSState)
    (i : ℕ) (hiN : i < N - 1) (hl1 : s.1.length = N) (hl2 : s.2.1.length = N)
    (hgap1 : s.1.getD i 0 < s.1.getD (i + 1) 0)
    (hv : 0 ≤ s.2.1.getD i 0 ∧ s.2.1.getD i 0 ≤ vmax)
    (hlastb : s.1.getD (N - 1) 0 ≤ L - 1) :
    ∃ w k2, 0 ≤ w ∧ w ≤ vmax ∧ s.1.getD i 0 + w ≤ s.1.getD (i + 1) 0 - 1 ∧
      nsBody L vmax p N u s i = (s.1.set i (s.1.getD i 0 + w), s.2.1.set i w, k2) := by
  have hiN' : i ≠ N - 1 := by omega
  have hgapv : nsGap L N s.1 i = s.1.getD (i + 1) 0 - s.1.getD i 0 := by
    unfold nsGap
    rw [if_pos hiN]
  obtain ⟨ha0, ha1⟩ := nsAccel_bounds vmax _ hv.1 hv.2
  have hsl1 := nsSlow_le_pred (nsGap L N s.1 i) (nsAccel vmax (s.2.1.getD i 0))
  have hsl0 : 0 ≤ nsSlow (nsGap L N s.1 i) (nsAccel vmax (s.2.1.getD i 0)) :=
    nsSlow_nonneg _ _ ha0 (by omega)
  have hsl2 := nsSlow_le_self (nsGap L N s.1 i) (nsAccel vmax (s.2.1.getD i 0))
  obtain ⟨hw0, hw1⟩ := nsDecel_bounds p u s.2.2 _ hsl0
  refine ⟨(nsDecel p u s.2.2 (nsSlow (nsGap L N s.1 i) (nsAccel vmax (s.2.1.getD i 0)))).1,
    (nsDecel p u s.2.2 (nsSlow (nsGap L N s.1 i) (nsAccel vmax (s.2.1.getD i 0)))).2,
    hw0, by omega, by omega, ?_⟩
  rw [nsBody_decomp]
  unfold nsFourRules nsWrapNorm
  simp only [getD_set_other _ _ _ _ _ hiN']
  rw [if_neg (by omega : ¬ L ≤ s.1.getD (N - 1) 0)]

lemma nsBody_last_char (L vmax : ℤ) (p : ℚ) (N : ℕ) (u : ℕ → ℚ) (s : NSState)
    (hN : 1 ≤ N) (hl1 : s.1.length = N)
    (hv : 0 ≤ s.2.1.getD (N - 1) 0 ∧ s.2.1.getD (N - 1) 0 ≤ vmax)
    (hG : 1 ≤ (L - s.1.getD (N - 1) 0 - 1) + s.1.getD 0 0) :
    ∃ w k2, 0 ≤ w ∧ w ≤ vmax ∧
      s.1.getD (N - 1) 0 + w ≤ L - 2 + s.1.getD 0 0 ∧
      nsBody L vmax p N u s (N - 1) =
        nsWrapNorm L N
          (s.1.set (N - 1) (s.1.getD (N - 1) 0 + w), s.2.1.set (N - 1) w, k2) := by
  have hiN : ¬ (N - 1 < N - 1) := by omega
  have hgapv : nsGap L N s.1 (N - 1) = (L - s.1.getD (N - 1) 0 - 1) + s.1.getD 0 0 := by
    unfold nsGap
    rw [if_neg hiN]
  obtain ⟨ha0, ha1⟩ := nsAccel_bounds vmax _ hv.1 hv.2
  have hsl1 := nsSlow_le_pred (nsGap L N s.1 (N - 1)) (nsAccel vmax (s.2.1.getD (N - 1) 0))
  have hsl0 : 0 ≤ nsSlow (nsGap L N s.1 (N - 1)) (nsAccel vmax (s.2.1.getD (N - 1) 0)) :=
    nsSlow_nonneg _ _ ha0 (by omega)
  have hsl2 := nsSlow_le_self (nsGap L N s.1 (N - 1)) (nsAccel vmax (s.2.1.getD (N - 1) 0))
  obtain ⟨hw0, hw1⟩ := nsDecel_bounds p u s.2.2 _ hsl0
  refine ⟨(nsDecel p u s.2.2
      (nsSlow (nsGap L N s.1 (N - 1)) (nsAccel vmax (s.2.1.getD (N - 1) 0)))).1,
    (nsDecel p u s.2.2
      (nsSlow (nsGap L N s.1 (N - 1)) (nsAccel vmax (s.2.1.getD (N - 1) 0)))).2,
    hw0, by omega, by omega, ?_⟩
  rw [nsBody_decomp]
  unfold nsFourRules
  rfl

lemma nsFold_mid_inv (L vmax : ℤ) (p : ℚ) (N : ℕ) (u : ℕ → ℚ) (pos vel : List ℤ) (k : ℕ)
    (hlp : pos.length = N) (hlv : vel.length = N)
    (hchain : ∀ t < N - 1, pos.getD t 0 < pos.getD (t + 1) 0)
    (hvel : ∀ t < N, 0 ≤ vel.getD t 0 ∧ vel.getD t 0 ≤ vmax)
    (hlast : pos.getD (N - 1) 0 ≤ L - 1) :
    ((List.range (N - 1)).foldl (nsBody L vmax p N u) (pos, vel, k)).1.length = N ∧
    ((List.range (N - 1)).foldl (nsBody L vmax p N u) (pos, vel, k)).2.1.length = N ∧
    (∀ t < N - 1,
      ((List.range (N - 1)).foldl (nsBody L vmax p N u) (pos, vel, k)).1.getD t 0 <
        ((List.range (N - 1)).foldl (nsBody L vmax p N u) (pos, vel, k)).1.getD (t + 1) 0) ∧
    (∀ t < N,
      0 ≤ ((List.range (N - 1)).foldl (nsBody L vmax p N u) (pos, vel, k)).2.1.getD t 0 ∧
      ((List.range (N - 1)).foldl (nsBody L vmax p N u) (pos, vel, k)).2.1.getD t 0 ≤ vmax) ∧
    pos.getD 0 0 ≤
      ((List.range (N - 1)).foldl (nsBody L vmax p N u) (pos, vel, k)).1.getD 0 0 ∧
    ((List.range (N - 1)).foldl (nsBody L vmax p N u) (pos, vel, k)).1.getD (N - 1) 0 =
      pos.getD (N - 1) 0 := by
  have key := foldl_inv (nsBody L vmax p N u)
    (fun s : NSState =>
      s.1.length = N ∧ s.2.1.length = N ∧
      (∀ t < N - 1, s.1.getD t 0 < s.1.getD (t + 1) 0) ∧
      (∀ t < N, 0 ≤ s.2.1.getD t 0 ∧ s.2.1.getD t 0 ≤ vmax) ∧
      pos.getD 0 0 ≤ s.1.getD 0 0 ∧
      s.1.getD (N - 1) 0 = pos.getD (N - 1) 0)
    (List.range (N - 1)) (pos, vel, k)
    ⟨hlp, hlv, hchain, hvel, le_refl _, rfl⟩ ?_
  · exact key
  · intro s i hi hs
    have hiN : i < N - 1 := List.mem_range.mp hi
    obtain ⟨sl1, sl2, schain, svel, s0, slast⟩ := hs
    obtain ⟨w, k2, hw0, hwv, hwlt, hbody⟩ :=
      nsBody_interior_char L vmax p N u s i hiN sl1 sl2 (schain i hiN)
        (svel i (by omega)) (by omega)
    rw [hbody]
    have hilen : i < s.1.length := by omega
    have hivlen : i < s.2.1.length := by omega
    refine ⟨by simp [sl1], by simp [sl2], ?_, ?_, ?_, ?_⟩
    · intro t ht
      rcases eq_or_ne t i with rfl | hti
      · rw [getD_set_self _ _ _ _ hilen, getD_set_other _ _ _ _ _ (by omega : t ≠ t + 1)]
        omega
      · rcases eq_or_ne (t + 1) i with hteq | htne
        · rw [getD_set_other _ _ _ _ _ (Ne.symm hti), hteq.symm,
            getD_set_self _ _ _ _ (hteq ▸ hilen)]
          have hst := schain t ht
          omega
        · rw [getD_set_other _ _ _ _ _ (Ne.symm hti), getD_set_other _ _ _ _ _ (Ne.symm htne)]
          exact schain t ht
    · intro t ht
      rcases eq_or_ne t i with rfl | hti
      · rw [getD_set_self _ _ _ _ hivlen]
        exact ⟨hw0, hwv⟩
      · rw [getD_set_other _ _ _ _ _ (Ne.symm hti)]
        exact svel t ht
    · rcases eq_or_ne i 0 with rfl | hi0
      · rw [getD_set_self _ _ _ _ hilen]
        omega
      · rw [getD_set_other _ _ _ _ _ hi0]
        exact s0
    · rw [getD_set_other _ _ _ _ _ (by omega : i ≠ N - 1)]
      exact slast

lemma nsLast_preserves (L vmax : ℤ) (p : ℚ) (N : ℕ) (u : ℕ → ℚ) (m : NSState)
    (pos0 last0 : ℤ) (hN : 1 ≤ N) (hL : 2 ≤ L)
    (ml1 : m.1.length = N) (ml2 : m.2.1.length = N)
    (mchain : ∀ t < N - 1, m.1.getD t 0 < m.1.getD (t + 1) 0)
    (mvel : ∀ t < N, 0 ≤ m.2.1.getD t 0 ∧ m.2.1.getD t 0 ≤ vmax)
    (m0 : pos0 ≤ m.1.getD 0 0) (h00 : 0 ≤ pos0)
    (mlast : m.1.getD (N - 1) 0 = last0) (hlast : last0 ≤ L - 1)
    (hsp : pos0 = 0 → last0 ≤ L - 2) :
    ReachWF L vmax N (nsBody L vmax p N u m (N - 1)).1
      (nsBody L vmax p N u m (N - 1)).2.1 := by
  have hG : 1 ≤ (L - m.1.getD (N - 1) 0 - 1) + m.1.getD 0 0 := by
    rcases eq_or_lt_of_le h00 with he | hlt
    · have hs2 := hsp he.symm
      omega
    · omega
  obtain ⟨w, k2, hw0, hwv, hwle, hbody⟩ :=
    nsBody_last_char L vmax p N u m hN ml1 (mvel (N - 1) (by omega)) hG
  rw [hbody]
  unfold nsWrapNorm
  dsimp only
  have hMl : N - 1 < m.1.length := by omega
  have hMlv : N - 1 < m.2.1.length := by omega
  rw [getD_set_self _ _ _ _ hMl, getD_set_self _ _ _ _ hMlv]
  by_cases hwrap : L ≤ m.1.getD (N - 1) 0 + w
  · rw [if_pos hwrap]
    dsimp only
    have hlastbound :
        ((m.1.getD (N - 1) 0 + w - L) ::
          (m.1.set (N - 1) (m.1.getD (N - 1) 0 + w)).take (N - 1)).getD (N - 1) 0 ≤ L - 2 := by
      rcases eq_or_ne (N - 1) 0 with h10 | h10
      · rw [h10, List.getD_cons_zero]
        have h01 : m.1.getD 0 0 = last0 := by rw [← mlast, h10]
        omega
      · obtain ⟨r, hr⟩ : ∃ r, N - 1 = r + 1 := ⟨N - 2, by omega⟩
        rw [hr, List.getD_cons_succ, getD_take_lt _ _ _ _ (by omega),
          getD_set_other _ _ _ _ _ (by omega : r + 1 ≠ r)]
        have hcr := mchain r (by omega)
        have hcr2 : m.1.getD (r + 1) 0 = last0 := by rw [← mlast, hr]
        omega
    refine ⟨⟨?_, ?_, hN, hL, ?_, ?_, by omega, ?_⟩, fun _ => hlastbound⟩
    · simp only [List.length_cons, List.length_take, List.length_set, ml1]
      omega
    · simp only [List.length_cons, List.length_take, List.length_set, ml2]
      omega
    · intro t ht
      cases t with
      | zero =>
        rw [List.getD_cons_zero, List.getD_cons_succ, getD_take_lt _ _ _ _ (by omega),
          getD_set_other _ _ _ _ _ (by omega : N - 1 ≠ 0)]
        omega
      | succ r =>
        rw [List.getD_cons_succ, List.getD_cons_succ, getD_take_lt _ _ _ _ (by omega),
          getD_take_lt _ _ _ _ (by omega), getD_set_other _ _ _ _ _ (by omega : N - 1 ≠ r),
          getD_set_other _ _ _ _ _ (by omega : N - 1 ≠ r + 1)]
        exact mchain r (by omega)
    · rw [List.getD_cons_zero]
      omega
    · intro t ht
      cases t with
      | zero =>
        rw [List.getD_cons_zero]
        exact ⟨hw0, hwv⟩
      | succ r =>
        rw [List.getD_cons_succ, getD_take_lt _ _ _ _ (by omega),
          getD_set_other _ _ _ _ _ (by omega : N - 1 ≠ r)]
        exact mvel r (by omega)
  · rw [if_neg hwrap]
    dsimp only
    have hq0 : (m.1.set (N - 1) (m.1.getD (N - 1) 0 + w)).getD (N - 1) 0 =
        m.1.getD (N - 1) 0 + w := getD_set_self _ _ _ _ hMl
    refine ⟨⟨?_, ?_, hN, hL, ?_, ?_, ?_, ?_⟩, ?_⟩
    · simp [ml1]
    · simp [ml2]
    · intro t ht
      rcases eq_or_ne (t + 1) (N - 1) with hteq | htne
      · rw [getD_set_other _ _ _ _ _ (by omega : N - 1 ≠ t), hteq.symm,
          getD_set_self _ _ _ _ (hteq ▸ hMl)]
        have hct := mchain t ht
        have hct2 := mlast
        rw [← hteq] at hct2
        omega
      · rw [getD_set_other _ _ _ _ _ (by omega : N - 1 ≠ t),
          getD_set_other _ _ _ _ _ (Ne.symm htne)]
        exact mchain t ht
    · rcases eq_or_ne (N - 1) 0 with h10 | h10
      · rw [← h10, hq0]
        have h01 : m.1.getD 0 0 = m.1.getD (N - 1) 0 := by rw [h10]
        omega
      · rw [getD_set_other _ _ _ _ _ h10]
        omega
    · rw [hq0]
      omega
    · intro t ht
      rcases eq_or_ne t (N - 1) with rfl | hti
      · rw [getD_set_self _ _ _ _ hMlv]
        exact ⟨hw0, hwv⟩
      · rw [getD_set_other _ _ _ _ _ (Ne.symm hti)]
        exact mvel t ht
    · intro hz
      rw [hq0]
      rcases eq_or_ne (N - 1) 0 with h10 | h10
      · rw [← h10, hq0] at hz
        have h01 : m.1.getD 0 0 = m.1.getD (N - 1) 0 := by rw [h10]
        omega
      · rw [getD_set_other _ _ _ _ _ h10] at hz
        have hp0 : pos0 = 0 := by omega
        have hs2 := hsp hp0
        omega

lemma nsStep_preserves_ReachWF (L vmax : ℤ) (p : ℚ) (N : ℕ) (u : ℕ → ℚ)
    (pos vel : List ℤ) (k : ℕ) (h : ReachWF L vmax N pos vel) :
    ReachWF L vmax N (nsStep L vmax p N u (pos, vel, k)).1
      (nsStep L vmax p N u (pos, vel, k)).2.1 := by
  obtain ⟨⟨hlp, hlv, hN, hL, hchain, h0, hlast, hvel⟩, hsp⟩ := h
  obtain ⟨M, rfl⟩ : ∃ M, N = M + 1 := ⟨N - 1, by omega⟩
  have hstep : nsStep L vmax p (M + 1) u (pos, vel, k) =
      nsBody L vmax p (M + 1) u
        ((List.range M).foldl (nsBody L vmax p (M + 1) u) (pos, vel, k)) M := by
    show (List.range (M + 1)).foldl _ _ = _
    rw [List.range_succ, List.foldl_append]
    rfl
  obtain ⟨ml1, ml2, mchain, mvel, m0, mlast⟩ :=
    nsFold_mid_inv L vmax p (M + 1) u pos vel k hlp hlv hchain hvel hlast
  rw [hstep]
  exact nsLast_preserves L vmax p (M + 1) u _ (pos.getD 0 0) (pos.getD (M + 1 - 1) 0)
    hN hL ml1 ml2 mchain mvel m0 h0 mlast hlast hsp

lemma scanl_getD_zero (g : ℤ) (gs : List ℤ) :
    (List.scanl (· + ·) g gs).getD 0 0 = g := by
  cases gs <;> simp [List.scanl]

lemma scanl_getD_succ (gs : List ℤ) :
    ∀ (g : ℤ) (t : ℕ), t < gs.length →
      (List.scanl (· + ·) g gs).getD (t + 1) 0 =
        (List.scanl (· + ·) g gs).getD t 0 + gs.getD t 0 := by
  induction gs with
  | nil =>
    intro g t ht
    simp at ht
  | cons x xs ih =>
    intro g t ht
    cases t with
    | zero =>
      simp only [List.scanl]
      rw [List.getD_cons_succ, List.getD_cons_zero, List.getD_cons_zero,
        scanl_getD_zero]
    | succ r =>
      simp only [List.scanl]
      rw [List.getD_cons_succ, List.getD_cons_succ, List.getD_cons_succ]
      exact ih (g + x) r (by simpa using ht)

lemma nsInitPos_ReachWF (L vmax : ℤ) (N : ℕ) (gaps velInit : List ℤ)
    (hN : 1 ≤ N) (hL : 2 ≤ L) (hlg : gaps.length = N) (hlv : velInit.length = N)
    (hg : ∀ g ∈ gaps, 1 ≤ g)
    (hv : ∀ t < N, 0 ≤ velInit.getD t 0 ∧ velInit.getD t 0 ≤ vmax)
    (hlast : (nsInitPos gaps).getD (N - 1) 0 ≤ L - 1) :
    ReachWF L vmax N (nsInitPos gaps) velInit := by
  cases gaps with
  | nil => simp at hlg; omega
  | cons g gs =>
    have hlen : (nsInitPos (g :: gs)).length = N := by
      simpa [nsInitPos, List.length_scanl] using hlg
    have hg0 : 1 ≤ g := hg g (List.mem_cons_self g gs)
    have hp0 : (nsInitPos (g :: gs)).getD 0 0 = g := scanl_getD_zero g gs
    have hchain : ∀ t < N - 1,
        (nsInitPos (g :: gs)).getD t 0 < (nsInitPos (g :: gs)).getD (t + 1) 0 := by
      intro t ht
      have htg : t < gs.length := by
        simp only [List.length_cons] at hlg
        omega
      have hstep := scanl_getD_succ gs g t htg
      have hmem : gs.getD t 0 ∈ g :: gs := by
        rw [List.getD_eq_getElem gs 0 htg]
        exact List.mem_cons_of_mem g (List.getElem_mem htg)
      have hgt := hg _ hmem
      show (List.scanl (· + ·) g gs).getD t 0 < (List.scanl (· + ·) g gs).getD (t + 1) 0
      omega
    refine ⟨⟨hlen, hlv, hN, hL, hchain, by omega, hlast, hv⟩, ?_⟩
    intro hz
    rw [hp0] at hz
    omega

/-- C4: every state reachable by the simulation satisfies the invariant
ReachWF -- the gap-based initialization establishes it (its first position is
the first gap, at least 1) and every tick preserves it -- and from any such
state one tick keeps all positions pairwise distinct and keeps the circular
ordering (positions strictly ascending in vehicle order, the wrap
normalization subtracting L from a wrapped last vehicle and moving it to the
front of the sequence). -/
theorem nsStep_noOverlap_C4 (L vmax : ℤ) (p : ℚ) (N : ℕ) (u : ℕ → ℚ) :
    (∀ (pos vel : List ℤ) (k : ℕ), ReachWF L vmax N pos vel →
      ReachWF L vmax N (nsStep L vmax p N u (pos, vel, k)).1
        (nsStep L vmax p N u (pos, vel, k)).2.1 ∧
      (∀ i < N, ∀ j < N, i ≠ j →
        (nsStep L vmax p N u (pos, vel, k)).1.getD i 0 ≠
          (nsStep L vmax p N u (pos, vel, k)).1.getD j 0) ∧
      (∀ i < N - 1,
        (nsStep L vmax p N u (pos, vel, k)).1.getD i 0 <
          (nsStep L vmax p N u (pos, vel, k)).1.getD (i + 1) 0)) ∧
    (∀ gaps velInit : List ℤ, 1 ≤ N → 2 ≤ L → gaps.length = N →
      velInit.length = N → (∀ g ∈ gaps, 1 ≤ g) →
      (∀ t < N, 0 ≤ velInit.getD t 0 ∧ velInit.getD t 0 ≤ vmax) →
      (nsInitPos gaps).getD (N - 1) 0 ≤ L - 1 →
      ReachWF L vmax N (nsInitPos gaps) velInit) := by
  constructor
  · intro pos vel k h
    have hR := nsStep_preserves_ReachWF L vmax p N u pos vel k h
    obtain ⟨⟨_, _, _, _, hchain, _, _, _⟩, _⟩ := hR
    refine ⟨nsStep_preserves_ReachWF L vmax p N u pos vel k h, ?_, hchain⟩
    intro i hi j hj hij
    rcases Nat.lt_trichotomy i j with hlt | heq | hgt
    · exact ne_of_lt (chain_strict_mono _ N hchain i j hlt hj)
    · exact absurd heq hij
    · exact (ne_of_lt (chain_strict_mono _ N hchain j i hgt hi)).symm
  · intro gaps velInit hN hL hlg hlv hg hv hlast
    exact nsInitPos_ReachWF L vmax N gaps velInit hN hL hlg hlv hg hv hlast

theorem nsStep_noOverlap_C4_witness :
    (ReachWF 10 2 2 (nsStep 10 2 (1/2) 2 (fun _ => 0) ([1, 3], [1, 2], 0)).1
        (nsStep 10 2 (1/2) 2 (fun _ => 0) ([1, 3], [1, 2], 0)).2.1 ∧
      (∀ i < 2, ∀ j < 2, i ≠ j →
        (nsStep 10 2 (1/2) 2 (fun _ => 0) ([1, 3], [1, 2], 0)).1.getD i 0 ≠
          (nsStep 10 2 (1/2) 2 (fun _ => 0) ([1, 3], [1, 2], 0)).1.getD j 0) ∧
      (∀ i < 2 - 1,
        (nsStep 10 2 (1/2) 2 (fun _ => 0) ([1, 3], [1, 2], 0)).1.getD i 0 <
          (nsStep 10 2 (1/2) 2 (fun _ => 0) ([1, 3], [1, 2], 0)).1.getD (i + 1) 0)) ∧
    ReachWF 10 2 2 (nsInitPos [1, 2]) [0, 0] :=
  ⟨(nsStep_noOverlap_C4 10 2 (1/2) 2 (fun _ => 0)).1 [1, 3] [1, 2] 0 (by decide),
    (nsStep_noOverlap_C4 10 2 (1/2) 2 (fun _ => 0)).2 [1, 2] [0, 0] (by norm_num)
      (by norm_num) (by decide) (by decide) (by decide) (by decide) (by decide)⟩

/-- C7 as stated is false on the code: the state with L=4, N=3, vmax=2,
positions [0, 2, 3] and velocities [0, 2, 0] is well-formed in the
specification's sense, yet one tick (with the first uniform draw below
p = 1) gives the wrap agent the velocity -1: its boundary gap
(L - pos[2] - 1) + pos[0] evaluates to 0, not at least 1, because agent 0
sits in cell 0 and the last agent in cell L - 1. -/
theorem nsVel_negative_C7_counterexample :
    SpecWF 4 2 3 [0, 2, 3] [0, 2, 0] ∧
    (nsRun 4 2 1 3 (fun _ => 0) 1 ([0, 2, 3], [0, 2, 0], 0)).2.1.getD 2 0 = -1 := by
  decide

/-- C7 amended: for runs started from a state satisfying the invariant the
initialization actually establishes (spec well-formedness plus: when the
first vehicle sits in cell 0, the last vehicle is at most in cell L - 2),
every velocity at every time stays within [0, vmax]; under that invariant
the wrap agent's gap quantity is at least 1 and the clamp never goes
negative. -/
theorem nsRun_velocity_C7 (L vmax : ℤ) (p : ℚ) (N : ℕ) (u : ℕ → ℚ)
    (pos vel : List ℤ) (k : ℕ) (h : ReachWF L vmax N pos vel) :
    ∀ T, ∀ i < N,
      0 ≤ (nsRun L vmax p N u T (pos, vel, k)).2.1.getD i 0 ∧
      (nsRun L vmax p N u T (pos, vel, k)).2.1.getD i 0 ≤ vmax := by
  have main : ∀ (T : ℕ) (st : NSState), ReachWF L vmax N st.1 st.2.1 →
      ReachWF L vmax N (nsRun L vmax p N u T st).1 (nsRun L vmax p N u T st).2.1 := by
    intro T
    induction T with
    | zero => exact fun st hst => hst
    | succ T ih =>
      intro st hst
      show ReachWF L vmax N (nsRun L vmax p N u T (nsStep L vmax p N u st)).1
        (nsRun L vmax p N u T (nsStep L vmax p N u st)).2.1
      obtain ⟨a, b, c⟩ := st
      exact ih _ (nsStep_preserves_ReachWF L vmax p N u a b c hst)
  intro T i hi
  exact (main T (pos, vel, k) h).1.2.2.2.2.2.2.2 i hi

theorem nsRun_velocity_C7_witness :
    0 ≤ (nsRun 10 2 (1/2) 2 (fun _ => 0) 2 ([1, 3], [1, 2], 0)).2.1.getD 0 0 ∧
    (nsRun 10 2 (1/2) 2 (fun _ => 0) 2 ([1, 3], [1, 2], 0)).2.1.getD 0 0 ≤ 2 :=
  nsRun_velocity_C7 10 2 (1/2) 2 (fun _ => 0) [1, 3] [1, 2] 0 (by decide) 2 0
    (by norm_num)
